import Mathlib

/-!
Verification of the page-content extraction engine of this repository.

Two implementations of `extractPageContent` exist in the sources:
* the full engine (listing detection, noise stripping, title location,
  candidate scoring with a 1.5x title boost, a three-stage fallback chain and a
  six-step text normalizer), embedded below in namespace `GmailMcp`;
* an earlier, simpler variant (first-match content selection, paragraph join,
  three-step normalizer), embedded in namespace `Popup`.

Text is modelled as `List Char`.  The JavaScript regex class backslash-s is
modelled by the ASCII whitespace characters (space, tab, newline, carriage
return, vertical tab, form feed); all inputs exercised by the specification are
ASCII, and the Unicode space separators that the host regex engine would also
match play no role in any claim.
-/

/-- The modelled whitespace class: ASCII whitespace, as matched by the source's
whitespace regexes and by string trimming. -/
def jsWs (c : Char) : Bool :=
  c = ' ' || c = '\t' || c = '\n' || c = '\r' || c = '\x0b' || c = '\x0c'

/-- Source step `.replace(/\s+/g, ' ')`: every maximal run of whitespace
becomes a single space. -/
def collapseWs : List Char → List Char
  | [] => []
  | [c] => if jsWs c then [' '] else [c]
  | a :: b :: rest =>
    if jsWs a && jsWs b then collapseWs (b :: rest)
    else (if jsWs a then ' ' else a) :: collapseWs (b :: rest)

/-- Source step `.replace(/\n+/g, '\n')`: every maximal run of newlines becomes
a single newline. -/
def collapseNl : List Char → List Char
  | [] => []
  | [c] => [c]
  | a :: b :: rest =>
    if a = '\n' && b = '\n' then collapseNl (b :: rest)
    else a :: collapseNl (b :: rest)

/-- Source step `.replace(/\t+/g, ' ')`: every maximal run of tabs becomes a
single space. -/
def collapseTab : List Char → List Char
  | [] => []
  | [c] => if c = '\t' then [' '] else [c]
  | a :: b :: rest =>
    if a = '\t' && b = '\t' then collapseTab (b :: rest)
    else (if a = '\t' then ' ' else a) :: collapseTab (b :: rest)

/-- Source step `.replace(/\r+/g, '')`: carriage returns are removed. -/
def removeCr (l : List Char) : List Char :=
  l.filter (fun c => c != '\r')

/-- `lowersTo pat l` holds when the first characters of `l` spell `pat` after
ASCII lowercasing: the case-insensitive literal match used by the
`/Advertisement/gi` regex. -/
def lowersTo : List Char → List Char → Bool
  | [], _ => true
  | _ :: _, [] => false
  | p :: ps, c :: cs => p = c.toLower && lowersTo ps cs

/-- The lowercased advertisement token of the `/Advertisement/gi` regex. -/
def advToken : List Char := "advertisement".data

/-- One left-to-right pass removing every (non-overlapping) case-insensitive
occurrence of the advertisement token, with explicit fuel so that the
definition is structurally recursive.  `advToken` has thirteen characters: on a
match the head character and the following twelve are dropped. -/
def removeAdsF : Nat → List Char → List Char
  | 0, l => l
  | _ + 1, [] => []
  | f + 1, c :: cs =>
    if lowersTo advToken (c :: cs) then removeAdsF f (cs.drop 12)
    else c :: removeAdsF f cs

/-- Source step `.replace(/Advertisement/gi, '')`.  The fuel `l.length` always
suffices, since each step consumes at least the head character. -/
def removeAds (l : List Char) : List Char := removeAdsF l.length l

/-- Whether a case-insensitive occurrence of the advertisement token appears
anywhere in the list. -/
def hasToken : List Char → Bool
  | [] => false
  | c :: cs => lowersTo advToken (c :: cs) || hasToken cs

/-- Remove trailing whitespace. -/
def trimRight : List Char → List Char
  | [] => []
  | c :: cs =>
    match trimRight cs with
    | [] => if jsWs c then [] else [c]
    | r => c :: r

/-- Source `.trim()`: remove leading and trailing whitespace. -/
def jsTrim (l : List Char) : List Char := trimRight (l.dropWhile jsWs)

/-- `hasChar c l` is true when `c` occurs in `l`. -/
def hasChar (c : Char) : List Char → Bool
  | [] => false
  | a :: l => a = c || hasChar c l

/-- True when every whitespace character of the list is a plain space. -/
def wsOnlySpace : List Char → Bool
  | [] => true
  | c :: l => (!jsWs c || c = ' ') && wsOnlySpace l

/-- True when no two consecutive characters are both whitespace. -/
def wsPairFree : List Char → Bool
  | [] => true
  | [_] => true
  | a :: b :: rest => !(jsWs a && jsWs b) && wsPairFree (b :: rest)

/-- `leadEq needle hay`: the needle is literally (case-sensitively) the lead of
the haystack. -/
def leadEq : List Char → List Char → Bool
  | [], _ => true
  | _ :: _, [] => false
  | a :: as, b :: bs => a = b && leadEq as bs

/-- `hasSub needle hay`: JavaScript `hay.includes(needle)`, literal
case-sensitive substring containment. -/
def hasSub (needle : List Char) : List Char → Bool
  | [] => needle.isEmpty
  | c :: rest => leadEq needle (c :: rest) || hasSub needle rest

/-- `s.endsWith(suffix)` on the character lists of the two strings. -/
def endsWith (s suffix : String) : Bool :=
  leadEq suffix.data.reverse s.data.reverse

/-!
## The document tree

A first-child / next-sibling encoding of the rendered DOM subtree handed to the
engine.  `visible` models the host visibility test (non-zero offset box or a
client rectangle): the engine only ever consumes its boolean outcome, so it is
carried as a node attribute, preserved by cloning.  The document is modelled by
its body element; selector queries return descendants of the queried root, in
document (pre-)order, never the root itself, matching `querySelectorAll`.
-/

inductive Dom where
  | nil : Dom
  | text (s : List Char) (sib : Dom)
  | elem (tag idn : String) (classes : List String)
      (attrs : List (String × String)) (visible : Bool) (child sib : Dom)
deriving DecidableEq, Repr

/-- Concatenated text of a sibling chain of nodes. -/
def textAll : Dom → List Char
  | .nil => []
  | .text s sib => s ++ textAll sib
  | .elem _ _ _ _ _ child sib => textAll child ++ textAll sib

/-- `node.textContent` of a single node. -/
def textContent : Dom → List Char
  | .nil => []
  | .text s _ => s
  | .elem _ _ _ _ _ child _ => textAll child

/-- Source `isVisible`: the host layout test, carried as the node's `visible`
attribute.  Only ever applied to elements. -/
def isVisible : Dom → Bool
  | .elem _ _ _ _ v _ _ => v
  | _ => false

/-- Serialized attribute text used by the markup serialization. -/
def attrText (ats : List (String × String)) : List Char :=
  ats.foldr (fun kv acc => ' ' :: kv.1.data ++ '=' :: '"' :: kv.2.data ++ '"' :: acc) []

/-- Serialized opening tag. -/
def openTag (t idn : String) (classes : List String) (ats : List (String × String)) : List Char :=
  '<' :: t.data
    ++ (if idn = "" then [] else ' ' :: 'i' :: 'd' :: '=' :: '"' :: idn.data ++ ['"'])
    ++ (if classes.isEmpty then [] else
        " class=\"".data ++ (String.intercalate " " classes).data ++ ['"'])
    ++ attrText ats ++ ['>']

/-- Serialized closing tag. -/
def closeTag (t : String) : List Char := '<' :: '/' :: t.data ++ ['>']

/-- Serialization of a sibling chain (the `visible` modelling flag is not part
of the markup). -/
def outerAll : Dom → List Char
  | .nil => []
  | .text s sib => s ++ outerAll sib
  | .elem t idn cls ats _ child sib =>
      openTag t idn cls ats ++ outerAll child ++ closeTag t ++ outerAll sib

/-- `node.innerHTML`: serialization of the children. -/
def innerHtml : Dom → List Char
  | .elem _ _ _ _ _ child _ => outerAll child
  | _ => []

/-- Number of element children (DOM `.children.length`, which counts elements
only). -/
def countElems : Dom → Nat
  | .nil => 0
  | .text _ sib => countElems sib
  | .elem _ _ _ _ _ _ sib => countElems sib + 1

/-- `node.children.length` of a single node. -/
def elemChildCount : Dom → Nat
  | .elem _ _ _ _ _ child _ => countElems child
  | _ => 0

/-!
## Selectors

Exactly the selector forms appearing in the source: tag names, class names,
ids, exact attribute values, tag-with-class compounds, and the descendant
combinator used by the listing classifier (for example `a h2`).
-/

inductive SelAtom where
  | tagName (t : String)
  | className (c : String)
  | idName (i : String)
  | attrVal (k v : String)
  | tagClass (t c : String)
deriving DecidableEq, Repr

inductive Sel where
  | single (a : SelAtom)
  | desc (anc tgt : SelAtom)
deriving DecidableEq, Repr

/-- Whether an element matches a simple selector. -/
def matchesAtom (a : SelAtom) : Dom → Bool
  | .elem tag idn cls ats _ _ _ =>
    match a with
    | .tagName t => tag = t
    | .className c => cls.contains c
    | .idName n => idn = n
    | .attrVal k v => ats.contains (k, v)
    | .tagClass t c => tag = t && cls.contains c
  | _ => false

/-- Whether an element with the given ancestor chain matches a selector. -/
def matchesSel (s : Sel) (e : Dom) (ancs : List Dom) : Bool :=
  match s with
  | .single a => matchesAtom a e
  | .desc anc tgt => matchesAtom tgt e && ancs.any (fun p => matchesAtom anc p)

/-- All elements of a sibling chain and their subtrees, in document
(pre-)order, each paired with its ancestor chain. -/
def elemsWA (ancs : List Dom) : Dom → List (Dom × List Dom)
  | .nil => []
  | .text _ sib => elemsWA ancs sib
  | .elem t idn cls ats v child sib =>
      (Dom.elem t idn cls ats v child sib, ancs)
        :: (elemsWA (Dom.elem t idn cls ats v child sib :: ancs) child ++ elemsWA ancs sib)

/-- `root.querySelectorAll(s1, s2, ...)`: the descendants of `root` matching
any of the selectors, in document order, each listed once. -/
def queryAll (sels : List Sel) (root : Dom) : List Dom :=
  match root with
  | .elem t idn cls ats v child _ =>
      ((elemsWA [Dom.elem t idn cls ats v child .nil] child).filter
        (fun p => sels.any (fun s => matchesSel s p.1 p.2))).map (fun p => p.1)
  | _ => []

/-- `root.querySelector(...)`: first match in document order. -/
def queryOne (sels : List Sel) (root : Dom) : Option Dom :=
  (queryAll sels root).head?

/-- Remove from a sibling chain every node (and hence its whole subtree)
matching the selector; `removeChild` on every `querySelectorAll` match. -/
def stripAtom (a : SelAtom) : Dom → Dom
  | .nil => .nil
  | .text s sib => .text s (stripAtom a sib)
  | .elem t idn cls ats v child sib =>
      if matchesAtom a (.elem t idn cls ats v child sib) then stripAtom a sib
      else .elem t idn cls ats v (stripAtom a child) (stripAtom a sib)

/-!
## The full extraction engine

Faithful embedding of the rich `extractPageContent` (listing classifier,
noise stripper, title locator, scored candidate selection, fallback chain,
six-step normalizer).  Two slips of the source are modelled exactly:

* inside the candidate scoring loop the score is declared `const` and the
  title boost then executes `score *= 1.5`, which in JavaScript throws
  `TypeError: Assignment to constant variable` whenever the boost condition
  holds (`JsError.constAssign` below);
* the final `return { type: 'article', title: articleTitle || ..., content }`
  reads `articleTitle`, a `let` binding local to `getMainContent`, so every
  article-path invocation throws `ReferenceError: articleTitle is not defined`
  (`JsError.undefRef` below).
-/

/-- The runtime exceptions the source can raise. -/
inductive JsError where
  /-- `TypeError: Assignment to constant variable`, from `score *= 1.5` on the
  `const score` of the candidate scoring loop. -/
  | constAssign
  /-- `ReferenceError: articleTitle is not defined`, from the final return
  object reading a binding local to `getMainContent`. -/
  | undefRef
deriving DecidableEq, Repr

/-- The result object: a listing (`type: 'homepage'`) or an article.  The
generic listing return of the source carries no title/link properties; they
are modelled as empty, matching the design's empty-string convention. -/
inductive ExtractionResult where
  | homepage (title : List Char) (link : String) (description : List Char)
  | article (title : List Char) (content : List Char)
deriving DecidableEq, Repr

/-- Whether the result is the listing variant. -/
def isHomepageResult : ExtractionResult → Bool
  | .homepage _ _ _ => true
  | .article _ _ => false

namespace GmailMcp

/-- `getTextToHtmlRatio`: trimmed text length over trimmed markup length, `0`
for empty markup. -/
def getTextToHtmlRatio (e : Dom) : ℚ :=
  let t := jsTrim (textContent e)
  let h := jsTrim (innerHtml e)
  if h.length > 0 then (t.length : ℚ) / (h.length : ℚ) else 0

/-- The URL endings that classify a page as a homepage. -/
def rootLikeUrl (url : String) : Bool :=
  endsWith url "/" || endsWith url ".com" || endsWith url ".org" || endsWith url ".net"

/-- The heading-and-anchor patterns counted by the listing classifier:
`'a h2, h2 a, h3 a, a h3, .headline a, a .headline'`. -/
def homepageLinkSels : List Sel :=
  [ .desc (.tagName "a") (.tagName "h2"), .desc (.tagName "h2") (.tagName "a")
  , .desc (.tagName "h3") (.tagName "a"), .desc (.tagName "a") (.tagName "h3")
  , .desc (.className "headline") (.tagName "a")
  , .desc (.tagName "a") (.className "headline") ]

/-- `isHomePage`: root-like URL, or strictly more than five heading-anchor
matches. -/
def isHomePage (url : String) (doc : Dom) : Bool :=
  rootLikeUrl url || (queryAll homepageLinkSels doc).length > 5

/-- The featured-article selectors tried on listing pages. -/
def featuredSels : List SelAtom :=
  [ .className "featured-article", .className "main-article", .className "top-story"
  , .className "lead-story", .className "headline-story", .className "primary-article"
  , .attrVal "data-featured" "true" ]

/-- `'h1, h2, .title, .headline'`, queried inside a featured element. -/
def featuredTitleSels : List Sel :=
  [ .single (.tagName "h1"), .single (.tagName "h2")
  , .single (.className "title"), .single (.className "headline") ]

/-- The generic listing message. -/
def homepageMsg : List Char :=
  "This appears to be a homepage or article listing page with multiple articles. Please navigate to a specific article to get a summary.".data

/-- The stem of the featured-article description. -/
def featuredMsgStem : List Char :=
  "This appears to be a homepage or article listing page. The featured article is: ".data

/-- `linkElement.href`, modelled as the `href` attribute (empty when absent). -/
def getHref : Dom → String
  | .elem _ _ _ ats _ _ _ => ((ats.lookup "href").getD "")
  | _ => ""

/-- The listing-page branch: first featured selector whose first match is
visible and contains both a heading and an anchor wins; otherwise the generic
message. -/
def featuredLoop : List SelAtom → Dom → ExtractionResult
  | [], _ => .homepage [] "" homepageMsg
  | s :: rest, doc =>
    match queryOne [Sel.single s] doc with
    | some f =>
      if isVisible f then
        match queryOne featuredTitleSels f, queryOne [Sel.single (.tagName "a")] f with
        | some te, some le =>
          .homepage (jsTrim (textContent te)) (getHref le)
            (featuredMsgStem ++ jsTrim (textContent te))
        | _, _ => featuredLoop rest doc
      else featuredLoop rest doc
    | none => featuredLoop rest doc

/-- The noise selectors removed from the cloned body, in source order. -/
def noiseSels : List SelAtom :=
  [ .tagName "header", .tagName "footer", .tagName "nav"
  , .className "navigation", .className "menu", .className "sidebar"
  , .className "comments", .className "related-articles", .className "recommended"
  , .className "social-share", .className "advertisement"
  , .className "nav", .idName "header", .idName "footer", .idName "nav"
  , .className "header", .className "footer" ]

/-- Clone the body and remove every noise match (cloning is value copying in
this model, so the original tree is untouched by construction). -/
def stripNoise : Dom → Dom
  | .elem t idn cls ats v child sib =>
      .elem t idn cls ats v (noiseSels.foldl (fun d s => stripAtom s d) child) sib
  | d => d

/-- The ordered title selectors. -/
def titleSels : List Sel :=
  [ .single (.tagClass "h1" "article-title"), .single (.tagClass "h1" "entry-title")
  , .single (.tagClass "h1" "headline"), .single (.tagClass "h1" "title")
  , .single (.className "article-headline"), .single (.className "article-title")
  , .single (.className "story-title"), .single (.className "entry-title")
  , .single (.attrVal "itemprop" "headline") ]

/-- The title locator: first selector whose first match is visible gives the
trimmed title; an invisible first match moves on to the next selector. -/
def locateTitle : List Sel → Dom → List Char
  | [], _ => []
  | s :: rest, t =>
    match queryOne [s] t with
    | some e => if isVisible e then jsTrim (textContent e) else locateTitle rest t
    | none => locateTitle rest t

/-- The ordered content selector tiers, exactly as listed in the source
(`.main-content` appears twice there). -/
def contentSels : List Sel :=
  [ .single (.tagName "article"), .single (.className "article-body")
  , .single (.className "story-content"), .single (.className "entry-content")
  , .single (.className "post-content"), .single (.attrVal "itemprop" "articleBody")
  , .single (.className "story__content"), .single (.className "article__content")
  , .single (.className "content-body"), .single (.className "story-article")
  , .single (.className "article-text"), .single (.className "news-content")
  , .single (.className "main-content"), .single (.idName "articleBody")
  , .single (.className "story-body__inner"), .single (.className "article-container")
  , .single (.className "article__body"), .single (.className "story-body")
  , .single (.className "Normal"), .single (.className "article_content")
  , .single (.idName "content-body"), .single (.className "main-content")
  , .single (.className "article-txt") ]

/-- The candidate iteration order: selector by selector, matches in document
order within each selector (an element matched by two tiers is visited twice,
as in the source's nested loops). -/
def candidateList (t : Dom) : List Dom :=
  contentSels.flatMap (fun s => queryAll [s] t)

/-- The scorer's admission gate: visible with trimmed text length strictly
greater than 200. -/
def scoreGate (e : Dom) : Bool :=
  isVisible e && decide ((jsTrim (textContent e)).length > 200)

/-- The candidate score before any boost. -/
def candScore (e : Dom) : ℚ :=
  ((jsTrim (textContent e)).length : ℚ) * getTextToHtmlRatio e

/-- The scoring loop.  For each gated candidate the source computes
`const score = textLength * ratio` and then, when the located title is
non-empty and contained in the candidate's text, executes `score *= 1.5`,
which throws (`constAssign`); otherwise the best pair is updated on a strictly
greater score (ties keep the earlier candidate). -/
def bestLoop (title : List Char) : List Dom → Option (Dom × ℚ) → Except JsError (Option (Dom × ℚ))
  | [], best => .ok best
  | e :: rest, best =>
    if scoreGate e then
      if !title.isEmpty && hasSub title (textContent e) then .error .constAssign
      else
        let bs : ℚ := match best with | some p => p.2 | none => 0
        bestLoop title rest (if candScore e > bs then some (e, candScore e) else best)
    else bestLoop title rest best

/-- The paragraph-cluster admission gate: visible with trimmed text length
strictly greater than 40. -/
def pGate (p : Dom) : Bool :=
  isVisible p && decide ((jsTrim (textContent p)).length > 40)

/-- The generic-block gate: visible with strictly more than two element
children. -/
def blockGate (e : Dom) : Bool :=
  isVisible e && decide (elemChildCount e > 2)

/-- The generic-block score. -/
def blockScore (e : Dom) : ℚ :=
  ((jsTrim (textContent e)).length : ℚ) * getTextToHtmlRatio e

/-- The best-generic-text-block loop over `div, section, main` candidates:
gated nodes whose trimmed text exceeds 500 characters compete on score;
strictly greater scores win, starting from the empty string with score 0. -/
def blockLoop : List Dom → List Char × ℚ → List Char × ℚ
  | [], best => best
  | e :: rest, best =>
    if blockGate e then
      if (jsTrim (textContent e)).length > 500 then
        blockLoop rest
          (if blockScore e > best.2 then (jsTrim (textContent e), blockScore e) else best)
      else blockLoop rest best
    else blockLoop rest best

/-- The selectors of the generic-block scan. -/
def blockSels : List Sel :=
  [ .single (.tagName "div"), .single (.tagName "section"), .single (.tagName "main") ]

/-- `getMainContent`, transliterated: strip noise into the working clone,
locate the title, run the scoring loop, and on no candidate fall through to
paragraph clustering, then the best generic text block, then the whole-body
text.  The source's `bodyClone`, `paragraphs` and `bestTextBlock` bindings are
written out at each use. -/
def getMainContent (doc : Dom) : Except JsError (List Char) :=
  match bestLoop (locateTitle titleSels (stripNoise doc))
      (candidateList (stripNoise doc)) none with
  | .error e => .error e
  | .ok (some be) => .ok (textContent be.1)
  | .ok none =>
    if ((queryAll [Sel.single (.tagName "p")] (stripNoise doc)).filter pGate).length > 3 then
      .ok (List.intercalate ['\n', '\n']
        (((queryAll [Sel.single (.tagName "p")] (stripNoise doc)).filter pGate).map textContent))
    else
      if ((blockLoop (queryAll blockSels (stripNoise doc)) ([], 0)).1).isEmpty then
        .ok (textContent (stripNoise doc))
      else .ok ((blockLoop (queryAll blockSels (stripNoise doc)) ([], 0)).1)

/-- The six-step text normalizer: whitespace collapse, newline collapse, tab
collapse, carriage-return removal, case-insensitive advertisement removal,
trim — in source order. -/
def normalize (s : List Char) : List Char :=
  jsTrim (removeAds (removeCr (collapseTab (collapseNl (collapseWs s)))))

/-- `extractPageContent`.  Listing pages short-circuit before any scoring.  On
the article path the source computes and cleans the content and then its
return object reads `articleTitle`, which is local to `getMainContent`: the
call throws `ReferenceError` after the normalization work. -/
def extractPageContent (url : String) (doc : Dom) : Except JsError ExtractionResult :=
  if isHomePage url doc then .ok (featuredLoop featuredSels doc)
  else
    match getMainContent doc with
    | .error e => .error e
    | .ok content =>
      let _cleaned := normalize content
      .error .undefRef

end GmailMcp

/-!
## The earlier, simpler extraction variant
-/

namespace Popup

/-- The content selectors of the simple variant. -/
def contentSels : List Sel :=
  [ .single (.tagName "article"), .single (.tagName "main")
  , .single (.className "content"), .single (.idName "content")
  , .single (.className "post"), .single (.className "article")
  , .single (.className "post-content"), .single (.attrVal "role" "main")
  , .single (.className "main-content"), .single (.idName "main-content") ]

/-- First-match selection: the first visible element, in selector order then
document order, whose untrimmed text exceeds 200 characters. -/
def firstLoop : List Sel → Dom → Option Dom
  | [], _ => none
  | s :: rest, doc =>
    match (queryAll [s] doc).find?
        (fun e => isVisible e && decide ((textContent e).length > 200)) with
    | some e => some e
    | none => firstLoop rest doc

/-- `getMainContent` of the simple variant: first qualifying selector match,
else all visible paragraphs with trimmed length over 50 joined by blank lines,
else the whole body text. -/
def getMainContent (doc : Dom) : List Char :=
  match firstLoop contentSels doc with
  | some e => textContent e
  | none =>
    let paragraphs := (queryAll [Sel.single (.tagName "p")] doc).filter
      (fun p => isVisible p && decide ((jsTrim (textContent p)).length > 50))
    if paragraphs.length > 0 then
      List.intercalate ['\n', '\n'] (paragraphs.map textContent)
    else textContent doc

/-- The simple variant's cleanup: whitespace collapse, newline collapse, trim. -/
def normalize (s : List Char) : List Char :=
  jsTrim (collapseNl (collapseWs s))

/-- `extractPageContent` of the simple variant: always returns the normalized
content string. -/
def extractPageContent (doc : Dom) : List Char :=
  normalize (getMainContent doc)

end Popup

/-!
## Stage characterizations and concrete documents

Separate definitions of the fallback stages, proved below to characterize the
transliterated `getMainContent`, plus the concrete documents used as failing
inputs and witnesses.
-/

namespace GmailMcp

/-- Stage one of the fallback chain: visible paragraphs with trimmed text over
40 characters, succeeding only when strictly more than three qualify, joined
with a blank line. -/
def paragraphStage (t : Dom) : Option (List Char) :=
  let ps := (queryAll [Sel.single (.tagName "p")] t).filter pGate
  if ps.length > 3 then some (List.intercalate ['\n', '\n'] (ps.map textContent))
  else none

/-- The candidate nodes of the generic-block scan. -/
def blockCands (t : Dom) : List Dom := queryAll blockSels t

/-- Stage two of the fallback chain: the best generic text block, succeeding
exactly when its loop produced a non-empty string. -/
def blockStage (t : Dom) : Option (List Char) :=
  let b := (blockLoop (blockCands t) ([], 0)).1
  if b.isEmpty then none else some b

/-- The fallback chain in order: paragraph clustering, best generic text
block, whole-body text. -/
def fallbackChain (t : Dom) : List Char :=
  match paragraphStage t with
  | some s => s
  | none =>
    match blockStage t with
    | some s => s
    | none => textContent t

/-- No node of the candidate iteration passes the scorer's admission gate. -/
def noQual (t : Dom) : Prop := ∀ e ∈ candidateList t, scoreGate e = false

end GmailMcp

/-- The 220-character article text, beginning with the located title. -/
def boostText : List Char := "My Title. ".data ++ List.replicate 210 'a'

/-- A visible `article` element whose text contains the page title and exceeds
the 200-character floor. -/
def boostArticle : Dom :=
  .elem "article" "" [] [] true (.text boostText .nil) .nil

/-- An article page with a matched `h1.article-title` headline whose text is
contained in the qualifying candidate: the input on which the title boost
fires. -/
def boostDoc : Dom :=
  .elem "body" "" [] [] true
    (.elem "h1" "" ["article-title"] [] true (.text "My Title".data .nil) boostArticle)
    .nil

/-- A body with no text at all. -/
def emptyDoc : Dom := .elem "body" "" [] [] true .nil .nil

/-- A 50-character paragraph text made of one repeated letter. -/
def paraText (c : Char) : List Char := List.replicate 50 c

/-- Five visible 50-character paragraphs, as a sibling chain. -/
def paraChain : Dom :=
  .elem "p" "" [] [] true (.text (paraText 'a') .nil)
    (.elem "p" "" [] [] true (.text (paraText 'b') .nil)
      (.elem "p" "" [] [] true (.text (paraText 'c') .nil)
        (.elem "p" "" [] [] true (.text (paraText 'd') .nil)
          (.elem "p" "" [] [] true (.text (paraText 'e') .nil) .nil))))

/-- An article page with no content-selector match and five qualifying
paragraphs. -/
def paraDoc : Dom := .elem "body" "" [] [] true paraChain .nil

/-- A chain of `n` anchors, each wrapping an `h2` headline. -/
def aH2Chain : Nat → Dom
  | 0 => .nil
  | n + 1 =>
    .elem "a" "" [] [("href", "https://example.com/x")] true
      (.elem "h2" "" [] [] true (.text "headline".data .nil) .nil)
      (aH2Chain n)

/-- A page with six heading-in-anchor matches: classified as a listing by the
count rule alone. -/
def listDoc : Dom := .elem "body" "" [] [] true (aH2Chain 6) .nil

/-- A visible `span` holding 180 characters. -/
def blockSpan (c : Char) : Dom :=
  .elem "span" "" [] [] true (.text (List.replicate 180 c) .nil) .nil

/-- A visible `div` with three element children and 540 characters of text:
a qualifying generic text block. -/
def blockDiv : Dom :=
  .elem "div" "" [] [] true
    (.elem "span" "" [] [] true (.text (List.replicate 180 'x') .nil)
      (.elem "span" "" [] [] true (.text (List.replicate 180 'y') .nil)
        (.elem "span" "" [] [] true (.text (List.replicate 180 'z') .nil) .nil)))
    .nil

/-- A page with no content-selector match, no qualifying paragraph cluster,
and one qualifying generic block. -/
def blockDoc : Dom := .elem "body" "" [] [] true blockDiv .nil

/-- An article page whose only content-selector match sits below the
200-character floor. -/
def floorDoc : Dom :=
  .elem "body" "" [] [] true
    (.elem "article" "" [] [] true (.text (List.replicate 150 'a') .nil) .nil)
    .nil

instance {ε α : Type} [DecidableEq ε] [DecidableEq α] : DecidableEq (Except ε α) := fun
  | .error e, .error f => decidable_of_iff (e = f) (by simp)
  | .error _, .ok _ => .isFalse (by simp)
  | .ok _, .error _ => .isFalse (by simp)
  | .ok a, .ok b => decidable_of_iff (a = b) (by simp)

instance (t : Dom) : Decidable (GmailMcp.noQual t) := by
  unfold GmailMcp.noQual
  infer_instance

/-!
## Lemmas about the scoring and block loops
-/

set_option maxRecDepth 10000

theorem bestLoop_ok_none (title : List Char) (l : List Dom)
    (h : ∀ e ∈ l, GmailMcp.scoreGate e = false) :
    GmailMcp.bestLoop title l none = .ok none := by
  induction l with
  | nil => rfl
  | cons e rest ih =>
    have he : GmailMcp.scoreGate e = false := h e (List.mem_cons_self _ _)
    simp only [GmailMcp.bestLoop, he, Bool.false_eq_true, if_false]
    exact ih (fun x hx => h x (List.mem_cons_of_mem _ hx))

theorem bestLoop_ok_some (title : List Char) (l : List Dom) (b : Option (Dom × ℚ))
    (e : Dom) (s : ℚ) (h : GmailMcp.bestLoop title l b = .ok (some (e, s))) :
    b = some (e, s) ∨ (e ∈ l ∧ GmailMcp.scoreGate e = true) := by
  induction l generalizing b with
  | nil =>
    simp only [GmailMcp.bestLoop, Except.ok.injEq] at h
    exact Or.inl h
  | cons x rest ih =>
    simp only [GmailMcp.bestLoop] at h
    by_cases hg : GmailMcp.scoreGate x = true
    · rw [if_pos hg] at h
      by_cases hb : (!title.isEmpty && hasSub title (textContent x)) = true
      · rw [if_pos hb] at h
        exact absurd h (by simp)
      · rw [if_neg hb] at h
        rcases ih _ h with h2 | h2
        · split at h2
          · have hex : x = e := by
              simp only [Option.some.injEq, Prod.mk.injEq] at h2
              exact h2.1
            subst hex
            exact Or.inr ⟨List.mem_cons_self _ _, hg⟩
          · exact Or.inl h2
        · exact Or.inr ⟨List.mem_cons_of_mem _ h2.1, h2.2⟩
    · rw [if_neg hg] at h
      rcases ih _ h with h2 | h2
      · exact Or.inl h2
      · exact Or.inr ⟨List.mem_cons_of_mem _ h2.1, h2.2⟩

theorem blockLoop_mono (l : List Dom) (b : List Char × ℚ) :
    b.2 ≤ (GmailMcp.blockLoop l b).2 := by
  induction l generalizing b with
  | nil => exact le_refl _
  | cons e rest ih =>
    simp only [GmailMcp.blockLoop]
    by_cases hg : GmailMcp.blockGate e = true
    · rw [if_pos hg]
      by_cases hl : (jsTrim (textContent e)).length > 500
      · rw [if_pos hl]
        by_cases hs : GmailMcp.blockScore e > b.2
        · rw [if_pos hs]
          exact le_trans (le_of_lt hs) (ih _)
        · rw [if_neg hs]
          exact ih _
      · rw [if_neg hl]
        exact ih _
    · rw [if_neg hg]
      exact ih _

theorem blockLoop_src (l : List Dom) (b : List Char × ℚ) :
    GmailMcp.blockLoop l b = b
    ∨ ∃ e, e ∈ l ∧ GmailMcp.blockGate e = true ∧ (jsTrim (textContent e)).length > 500
        ∧ GmailMcp.blockLoop l b = (jsTrim (textContent e), GmailMcp.blockScore e) := by
  induction l generalizing b with
  | nil => exact Or.inl rfl
  | cons e rest ih =>
    simp only [GmailMcp.blockLoop]
    by_cases hg : GmailMcp.blockGate e = true
    · rw [if_pos hg]
      by_cases hl : (jsTrim (textContent e)).length > 500
      · rw [if_pos hl]
        by_cases hs : GmailMcp.blockScore e > b.2
        · rw [if_pos hs]
          rcases ih (jsTrim (textContent e), GmailMcp.blockScore e) with h2 | ⟨x, hx, h3, h4, h5⟩
          · exact Or.inr ⟨e, List.mem_cons_self _ _, hg, hl, h2⟩
          · exact Or.inr ⟨x, List.mem_cons_of_mem _ hx, h3, h4, h5⟩
        · rw [if_neg hs]
          rcases ih b with h2 | ⟨x, hx, h3, h4, h5⟩
          · exact Or.inl h2
          · exact Or.inr ⟨x, List.mem_cons_of_mem _ hx, h3, h4, h5⟩
      · rw [if_neg hl]
        rcases ih b with h2 | ⟨x, hx, h3, h4, h5⟩
        · exact Or.inl h2
        · exact Or.inr ⟨x, List.mem_cons_of_mem _ hx, h3, h4, h5⟩
    · rw [if_neg hg]
      rcases ih b with h2 | ⟨x, hx, h3, h4, h5⟩
      · exact Or.inl h2
      · exact Or.inr ⟨x, List.mem_cons_of_mem _ hx, h3, h4, h5⟩

theorem blockLoop_max (l : List Dom) (b : List Char × ℚ) (e : Dom) (he : e ∈ l)
    (hg : GmailMcp.blockGate e = true) (hl : (jsTrim (textContent e)).length > 500) :
    GmailMcp.blockScore e ≤ (GmailMcp.blockLoop l b).2 := by
  induction l generalizing b with
  | nil => cases he
  | cons x rest ih =>
    simp only [GmailMcp.blockLoop]
    rcases List.mem_cons.mp he with rfl | hmem
    · rw [if_pos hg, if_pos hl]
      by_cases hs : GmailMcp.blockScore e > b.2
      · rw [if_pos hs]
        exact le_trans (le_refl _) (blockLoop_mono _ _)
      · rw [if_neg hs]
        exact le_trans (le_of_not_lt hs) (blockLoop_mono _ _)
    · by_cases hgx : GmailMcp.blockGate x = true
      · rw [if_pos hgx]
        by_cases hlx : (jsTrim (textContent x)).length > 500
        · rw [if_pos hlx]
          by_cases hs : GmailMcp.blockScore x > b.2
          · rw [if_pos hs]; exact ih _ hmem
          · rw [if_neg hs]; exact ih _ hmem
        · rw [if_neg hlx]; exact ih _ hmem
      · rw [if_neg hgx]; exact ih _ hmem

theorem featuredLoop_homepage (sels : List SelAtom) (doc : Dom) :
    isHomepageResult (GmailMcp.featuredLoop sels doc) = true := by
  induction sels with
  | nil => rfl
  | cons s rest ih =>
    simp only [GmailMcp.featuredLoop]
    repeat' split
    all_goals first | rfl | exact ih

theorem getMainContent_fallback (doc : Dom) (h : GmailMcp.noQual (GmailMcp.stripNoise doc)) :
    GmailMcp.getMainContent doc = .ok (GmailMcp.fallbackChain (GmailMcp.stripNoise doc)) := by
  unfold GmailMcp.getMainContent
  rw [bestLoop_ok_none _ _ h]
  unfold GmailMcp.fallbackChain GmailMcp.paragraphStage GmailMcp.blockStage GmailMcp.blockCands
  by_cases hp :
      ((queryAll [Sel.single (.tagName "p")] (GmailMcp.stripNoise doc)).filter GmailMcp.pGate).length > 3
  · simp only [hp, if_true]
  · simp only [hp, if_false]
    by_cases hb :
        ((GmailMcp.blockLoop (queryAll GmailMcp.blockSels (GmailMcp.stripNoise doc)) ([], 0)).1).isEmpty = true
    · simp only [hb, if_true]
    · simp only [hb, Bool.false_eq_true, if_false]

/-!
## Claim theorems
-/

/-- Claim C1 (code bug): candidate selection is meant to be a global maximum
across all selector tiers, and the located title's containment is meant to
multiply a candidate's score by 1.5; but on `boostDoc` — where the qualifying
`article` candidate (visible, 220 > 200 trimmed characters, member of the
candidate iteration) contains the located title — the scoring loop executes
`score *= 1.5` on a `const` binding and throws `TypeError`, so no candidate is
ever returned for such trees. -/
theorem c1_global_max_broken_by_const_throw :
    boostArticle ∈ GmailMcp.candidateList (GmailMcp.stripNoise boostDoc)
    ∧ GmailMcp.scoreGate boostArticle = true
    ∧ GmailMcp.getMainContent boostDoc = .error .constAssign := by
  refine ⟨by decide, by decide, by decide⟩

/-- Claim C2: a root-like URL or strictly more than five heading-anchor
matches classifies the document as a listing; extraction then returns the
listing result computed by the featured-article search alone and the
scorer/fallback stages are never reached (the listing branch returns first,
which is also why only listing pages escape the article-path
`ReferenceError`). -/
theorem c2_listing_short_circuit (url : String) (doc : Dom)
    (h : GmailMcp.rootLikeUrl url = true
      ∨ (queryAll GmailMcp.homepageLinkSels doc).length > 5) :
    GmailMcp.isHomePage url doc = true
    ∧ GmailMcp.extractPageContent url doc =
        .ok (GmailMcp.featuredLoop GmailMcp.featuredSels doc)
    ∧ isHomepageResult (GmailMcp.featuredLoop GmailMcp.featuredSels doc) = true := by
  have hh : GmailMcp.isHomePage url doc = true := by
    unfold GmailMcp.isHomePage
    rcases h with h | h
    · simp [h]
    · simp [h]
  refine ⟨hh, ?_, featuredLoop_homepage _ _⟩
  unfold GmailMcp.extractPageContent
  rw [if_pos hh]

/-- Witness for claim C2 at `listDoc`, a page with six heading-in-anchor
matches and a non-root URL. -/
theorem c2_listing_short_circuit_witness :
    (GmailMcp.rootLikeUrl "https://news.example.com/top" = true
      ∨ (queryAll GmailMcp.homepageLinkSels listDoc).length > 5)
    ∧ (GmailMcp.isHomePage "https://news.example.com/top" listDoc = true
       ∧ GmailMcp.extractPageContent "https://news.example.com/top" listDoc =
           .ok (GmailMcp.featuredLoop GmailMcp.featuredSels listDoc)
       ∧ isHomepageResult (GmailMcp.featuredLoop GmailMcp.featuredSels listDoc) = true) :=
  ⟨Or.inr (by decide), c2_listing_short_circuit _ _ (Or.inr (by decide))⟩

/-- Claim C3: when no candidate passes the scorer gate, `getMainContent`
returns exactly the fallback chain — paragraph clustering first, then the
best-generic-text-block stage, then the whole-body text — and whenever the
middle stage succeeds its output is the trimmed text of a visible
`div`/`section`/`main` node with more than two element children and more than
500 trimmed characters whose score is maximal among all such nodes. -/
theorem c3_fallback_chain_order (doc : Dom) (h : GmailMcp.noQual (GmailMcp.stripNoise doc)) :
    GmailMcp.getMainContent doc = .ok (GmailMcp.fallbackChain (GmailMcp.stripNoise doc))
    ∧ (∀ s, GmailMcp.blockStage (GmailMcp.stripNoise doc) = some s →
        ∃ b, b ∈ GmailMcp.blockCands (GmailMcp.stripNoise doc)
          ∧ GmailMcp.blockGate b = true
          ∧ (jsTrim (textContent b)).length > 500
          ∧ s = jsTrim (textContent b)
          ∧ ∀ e, e ∈ GmailMcp.blockCands (GmailMcp.stripNoise doc) →
              GmailMcp.blockGate e = true → (jsTrim (textContent e)).length > 500 →
              GmailMcp.blockScore e ≤ GmailMcp.blockScore b) := by
  refine ⟨getMainContent_fallback doc h, ?_⟩
  intro s hs
  unfold GmailMcp.blockStage at hs
  by_cases hb :
      ((GmailMcp.blockLoop (GmailMcp.blockCands (GmailMcp.stripNoise doc)) ([], 0)).1).isEmpty = true
  · rw [if_pos hb] at hs
    cases hs
  · rw [if_neg hb] at hs
    rcases blockLoop_src (GmailMcp.blockCands (GmailMcp.stripNoise doc)) ([], 0) with
      h0 | ⟨b, hbm, hbg, hbl, heq⟩
    · rw [h0] at hb
      exact absurd rfl hb
    · refine ⟨b, hbm, hbg, hbl, ?_, ?_⟩
      · rw [heq] at hs
        exact (Option.some.injEq _ _ ▸ hs).symm ▸ rfl
      · intro e hem heg hel
        have := blockLoop_max (GmailMcp.blockCands (GmailMcp.stripNoise doc)) ([], 0) e hem heg hel
        rw [heq] at this
        exact this

/-- Witness for claim C3 at `blockDoc`: no content-selector candidate, fewer
than four qualifying paragraphs, one qualifying generic block. -/
theorem c3_fallback_chain_order_witness :
    GmailMcp.noQual (GmailMcp.stripNoise blockDoc)
    ∧ (GmailMcp.getMainContent blockDoc =
        .ok (GmailMcp.fallbackChain (GmailMcp.stripNoise blockDoc))
      ∧ (∀ s, GmailMcp.blockStage (GmailMcp.stripNoise blockDoc) = some s →
        ∃ b, b ∈ GmailMcp.blockCands (GmailMcp.stripNoise blockDoc)
          ∧ GmailMcp.blockGate b = true
          ∧ (jsTrim (textContent b)).length > 500
          ∧ s = jsTrim (textContent b)
          ∧ ∀ e, e ∈ GmailMcp.blockCands (GmailMcp.stripNoise blockDoc) →
              GmailMcp.blockGate e = true → (jsTrim (textContent e)).length > 500 →
              GmailMcp.blockScore e ≤ GmailMcp.blockScore b)) :=
  ⟨by decide, c3_fallback_chain_order blockDoc (by decide)⟩

/-- Claim C4 (code bug): paragraph clustering itself behaves as specified on
`paraDoc` — five visible 50-character paragraphs, no content-selector match —
so `getMainContent` returns the five texts joined by blank lines; but
`extractPageContent` then throws `ReferenceError` (its return object reads
`articleTitle`, which is local to `getMainContent`), so the promised `Article`
result is never produced. -/
theorem c4_paragraph_cluster_then_reference_error :
    GmailMcp.getMainContent paraDoc =
      .ok (List.intercalate ['\n', '\n']
        [paraText 'a', paraText 'b', paraText 'c', paraText 'd', paraText 'e'])
    ∧ GmailMcp.extractPageContent "https://example.com/story" paraDoc = .error .undefRef := by
  refine ⟨by decide, by decide⟩

/-- Claim C5 (code bug): the title boost is specified as multiplying the score
by exactly 1.5 when the located title is non-empty and contained in the
candidate's text; on `boostDoc` the boost condition holds (non-empty located
title contained in the candidate text) and the source instead throws
`TypeError: Assignment to constant variable` from `score *= 1.5` on the
`const` score. -/
theorem c5_title_boost_throws :
    (GmailMcp.locateTitle GmailMcp.titleSels (GmailMcp.stripNoise boostDoc)).isEmpty = false
    ∧ hasSub (GmailMcp.locateTitle GmailMcp.titleSels (GmailMcp.stripNoise boostDoc))
        (textContent boostArticle) = true
    ∧ GmailMcp.getMainContent boostDoc = .error .constAssign := by
  refine ⟨by decide, by decide, by decide⟩

/-- Claim C7 (code bug): extraction is specified never to raise and to map a
document with no text to an `Article` with empty content; the embedded source
does produce the empty content inside `getMainContent`, but every article-path
invocation of `extractPageContent` then raises `ReferenceError` because the
final return object reads `articleTitle`, a binding local to
`getMainContent`. -/
theorem c7_article_path_raises :
    GmailMcp.getMainContent emptyDoc = .ok []
    ∧ GmailMcp.extractPageContent "https://example.com/page" emptyDoc = .error .undefRef := by
  refine ⟨by decide, by decide⟩

/-- Claim C8: the acceptance floor of the scorer is exactly 200 characters —
whenever the scoring loop yields a candidate, that candidate passed the gate
(visible with trimmed text length strictly over 200) — and when every node of
the candidate iteration fails the gate the loop yields none and
`getMainContent` is exactly the fallback chain. -/
theorem c8_acceptance_floor (doc : Dom) :
    (∀ e s, GmailMcp.bestLoop (GmailMcp.locateTitle GmailMcp.titleSels (GmailMcp.stripNoise doc))
        (GmailMcp.candidateList (GmailMcp.stripNoise doc)) none = .ok (some (e, s)) →
        GmailMcp.scoreGate e = true ∧ (jsTrim (textContent e)).length > 200)
    ∧ (GmailMcp.noQual (GmailMcp.stripNoise doc) →
        GmailMcp.bestLoop (GmailMcp.locateTitle GmailMcp.titleSels (GmailMcp.stripNoise doc))
          (GmailMcp.candidateList (GmailMcp.stripNoise doc)) none = .ok none
        ∧ GmailMcp.getMainContent doc = .ok (GmailMcp.fallbackChain (GmailMcp.stripNoise doc))) := by
  constructor
  · intro e s hj
    rcases bestLoop_ok_some _ _ _ _ _ hj with h0 | ⟨_, hg⟩
    · cases h0
    · refine ⟨hg, ?_⟩
      have := hg
      unfold GmailMcp.scoreGate at this
      have h2 := (Bool.and_eq_true _ _).mp this
      exact of_decide_eq_true h2.2
  · intro h
    exact ⟨bestLoop_ok_none _ _ h, getMainContent_fallback doc h⟩

/-- Witness for claim C8 at `floorDoc`, whose only content-selector match has
150 characters of text: below the floor, so the scorer yields none and the
fallback chain runs. -/
theorem c8_acceptance_floor_witness :
    GmailMcp.noQual (GmailMcp.stripNoise floorDoc)
    ∧ (GmailMcp.bestLoop (GmailMcp.locateTitle GmailMcp.titleSels (GmailMcp.stripNoise floorDoc))
          (GmailMcp.candidateList (GmailMcp.stripNoise floorDoc)) none = .ok none
       ∧ GmailMcp.getMainContent floorDoc =
           .ok (GmailMcp.fallbackChain (GmailMcp.stripNoise floorDoc))) :=
  ⟨by decide, (c8_acceptance_floor floorDoc).2 (by decide)⟩

/-!
## Lemmas about the normalization steps
-/

theorem wsOnlySpace_cons (c : Char) (l : List Char) :
    wsOnlySpace (c :: l) = ((!jsWs c || c = ' ') && wsOnlySpace l) := rfl

theorem wsPairFree_cons2 (a b : Char) (l : List Char) :
    wsPairFree (a :: b :: l) = (!(jsWs a && jsWs b) && wsPairFree (b :: l)) := rfl

theorem collapseWs_cons_not_ws (c : Char) (l : List Char) (h : jsWs c = false) :
    collapseWs (c :: l) = c :: collapseWs l := by
  cases l with
  | nil => simp [collapseWs, h]
  | cons b rest => simp [collapseWs, h]

theorem collapseWs_head_ws (b : Char) (rest : List Char) (h : jsWs b = true) :
    ∃ t, collapseWs (b :: rest) = ' ' :: t := by
  induction rest generalizing b with
  | nil => exact ⟨[], by simp [collapseWs, h]⟩
  | cons r rs ih =>
    by_cases hr : jsWs r = true
    · rcases ih r hr with ⟨t, ht⟩
      exact ⟨t, by simp [collapseWs, h, hr, ht]⟩
    · exact ⟨collapseWs (r :: rs), by simp [collapseWs, h, hr]⟩

theorem hasChar_collapseWs (l : List Char) (c : Char) (hws : jsWs c = true) (hc : c ≠ ' ') :
    hasChar c (collapseWs l) = false := by
  induction l using collapseWs.induct with
  | case1 => rfl
  | case2 d hd =>
    have h1 : ' ' ≠ c := fun he => hc he.symm
    simp [collapseWs, hd, hasChar, h1]
  | case3 d hd =>
    have h1 : d ≠ c := by
      intro he
      rw [he] at hd
      exact hd hws
    simp [collapseWs, hd, hasChar, h1]
  | case4 a b rest h ih =>
    simpa [collapseWs, h] using ih
  | case5 a b rest h ih =>
    have hcw : collapseWs (a :: b :: rest) =
        (if jsWs a then ' ' else a) :: collapseWs (b :: rest) := by
      simp [collapseWs, h]
    rw [hcw]
    by_cases ha : jsWs a = true
    · have h1 : ' ' ≠ c := fun he => hc he.symm
      simp [ha, hasChar, h1, ih]
    · have h1 : a ≠ c := by
        intro he
        rw [he] at ha
        exact ha hws
      simp [ha, hasChar, h1, ih]

theorem wsOnlySpace_collapseWs (l : List Char) : wsOnlySpace (collapseWs l) = true := by
  induction l using collapseWs.induct with
  | case1 => rfl
  | case2 d hd => simp [collapseWs, hd, wsOnlySpace]
  | case3 d hd => simp [collapseWs, hd, wsOnlySpace]
  | case4 a b rest h ih => simpa [collapseWs, h] using ih
  | case5 a b rest h ih =>
    have hcw : collapseWs (a :: b :: rest) =
        (if jsWs a then ' ' else a) :: collapseWs (b :: rest) := by
      simp [collapseWs, h]
    rw [hcw]
    by_cases ha : jsWs a = true
    · simp [ha, wsOnlySpace, ih]
    · simp [ha, wsOnlySpace, ih]

theorem wsPairFree_collapseWs (l : List Char) : wsPairFree (collapseWs l) = true := by
  induction l using collapseWs.induct with
  | case1 => rfl
  | case2 d hd => simp [collapseWs, hd, wsPairFree]
  | case3 d hd => simp [collapseWs, hd, wsPairFree]
  | case4 a b rest h ih => simpa [collapseWs, h] using ih
  | case5 a b rest h ih =>
    have hcw : collapseWs (a :: b :: rest) =
        (if jsWs a then ' ' else a) :: collapseWs (b :: rest) := by
      simp [collapseWs, h]
    rw [hcw]
    by_cases hb : jsWs b = true
    · have ha : jsWs a = false := by
        cases haa : jsWs a
        · rfl
        · exact absurd (by rw [haa, hb]; rfl) h
      rcases collapseWs_head_ws b rest hb with ⟨t, ht⟩
      rw [ht]
      rw [ht] at ih
      simp [ha, wsPairFree, ih]
    · have hb2 : jsWs b = false := by simpa using hb
      have hbw : collapseWs (b :: rest) = b :: collapseWs rest :=
        collapseWs_cons_not_ws b rest hb2
      rw [hbw]
      rw [hbw] at ih
      simp [wsPairFree, hb2, ih]

theorem collapseWs_id (l : List Char) (h1 : wsOnlySpace l = true) (h2 : wsPairFree l = true) :
    collapseWs l = l := by
  induction l using collapseWs.induct with
  | case1 => rfl
  | case2 c hc =>
    have hcs : c = ' ' := by
      simp only [wsOnlySpace, Bool.and_true, Bool.or_eq_true, Bool.not_eq_true] at h1
      rcases h1 with h1 | h1
      · rw [hc] at h1; cases h1
      · exact of_decide_eq_true h1
    simp [collapseWs, hc, hcs]
  | case3 c hc => simp [collapseWs, hc]
  | case4 a b rest h ih =>
    exfalso
    rw [wsPairFree_cons2, Bool.and_eq_true, Bool.not_eq_true'] at h2
    rw [h] at h2
    cases h2.1
  | case5 a b rest h ih =>
    have hr1 : wsOnlySpace (b :: rest) = true := by
      rw [wsOnlySpace_cons, Bool.and_eq_true] at h1
      exact h1.2
    have hr2 : wsPairFree (b :: rest) = true := by
      rw [wsPairFree_cons2, Bool.and_eq_true] at h2
      exact h2.2
    have hcw : collapseWs (a :: b :: rest) =
        (if jsWs a then ' ' else a) :: collapseWs (b :: rest) := by
      simp [collapseWs, h]
    rw [hcw, ih hr1 hr2]
    by_cases ha : jsWs a = true
    · have has : a = ' ' := by
        simp only [wsOnlySpace, Bool.and_eq_true, Bool.or_eq_true, Bool.not_eq_true] at h1
        rcases h1.1 with hx | hx
        · rw [ha] at hx; cases hx
        · exact of_decide_eq_true hx
      simp [ha, has]
    · simp [ha]

theorem collapseWs_cons_inv (l : List Char) (c : Char) (t : List Char)
    (hc : jsWs c = false) (h : collapseWs l = c :: t) :
    ∃ l2, l = c :: l2 ∧ t = collapseWs l2 := by
  induction l using collapseWs.induct with
  | case1 => cases h
  | case2 d hd =>
    exfalso
    simp only [collapseWs, hd, if_true] at h
    have : ' ' = c := (List.cons.injEq _ _ _ _ ▸ h).1
    rw [← this] at hc
    cases hc
  | case3 d hd =>
    simp only [collapseWs, hd, if_false] at h
    have h3 := List.cons.injEq _ _ _ _ ▸ h
    refine ⟨[], ?_, ?_⟩
    · rw [h3.1]
    · rw [← h3.2]
      rfl
  | case4 a b rest h4 ih =>
    have hb : jsWs b = true := (Bool.and_eq_true _ _ |>.mp h4).2
    have hcw : collapseWs (a :: b :: rest) = collapseWs (b :: rest) := by
      simp [collapseWs, h4]
    rw [hcw] at h
    rcases ih h with ⟨l2, he, _⟩
    exfalso
    have : b = c := (List.cons.injEq _ _ _ _ ▸ he).1
    rw [this] at hb
    rw [hb] at hc
    cases hc
  | case5 a b rest h5 ih =>
    have hcw : collapseWs (a :: b :: rest) =
        (if jsWs a then ' ' else a) :: collapseWs (b :: rest) := by
      simp [collapseWs, h5]
    rw [hcw] at h
    have h6 := (List.cons.injEq _ _ _ _ ▸ h).1
    have h7 := (List.cons.injEq _ _ _ _ ▸ h).2
    by_cases ha : jsWs a = true
    · exfalso
      rw [if_pos ha] at h6
      rw [← h6] at hc
      cases hc
    · rw [if_neg ha] at h6
      exact ⟨b :: rest, by rw [h6], h7.symm⟩

theorem collapseNl_id (l : List Char) (h : hasChar '\n' l = false) : collapseNl l = l := by
  induction l with
  | nil => rfl
  | cons a rest ih =>
    have ha : (a = '\n') = False := by
      simp only [hasChar, Bool.or_eq_false_iff] at h
      simp [of_decide_eq_false h.1]
    have hrest : hasChar '\n' rest = false := by
      simp only [hasChar, Bool.or_eq_false_iff] at h
      exact h.2
    cases rest with
    | nil => rfl
    | cons b rs =>
      have hihr := ih hrest
      simp only [collapseNl]
      rw [if_neg (by simp [ha])]
      rw [hihr]

theorem collapseTab_id (l : List Char) (h : hasChar '\t' l = false) : collapseTab l = l := by
  induction l with
  | nil => rfl
  | cons a rest ih =>
    have ha : (a = '\t') = False := by
      simp only [hasChar, Bool.or_eq_false_iff] at h
      simp [of_decide_eq_false h.1]
    have hrest : hasChar '\t' rest = false := by
      simp only [hasChar, Bool.or_eq_false_iff] at h
      exact h.2
    cases rest with
    | nil =>
      simp only [collapseTab]
      rw [if_neg (by simp [ha])]
    | cons b rs =>
      have hihr := ih hrest
      simp only [collapseTab]
      rw [if_neg (by simp [ha]), if_neg (by simp [ha])]
      rw [hihr]

theorem removeCr_id (l : List Char) (h : hasChar '\r' l = false) : removeCr l = l := by
  induction l with
  | nil => rfl
  | cons a rest ih =>
    simp only [hasChar, Bool.or_eq_false_iff] at h
    have ha : (a != '\r') = true := by
      simp [of_decide_eq_false h.1]
    simp only [removeCr, List.filter]
    rw [ha]
    have := ih h.2
    simp only [removeCr] at this
    rw [this]

theorem hasChar_append (c : Char) (a b : List Char) :
    hasChar c (a ++ b) = (hasChar c a || hasChar c b) := by
  induction a with
  | nil => simp [hasChar]
  | cons x xs ih => simp [hasChar, ih, Bool.or_assoc]

theorem hasChar_dropWhile (c : Char) (p : Char → Bool) (l : List Char)
    (h : hasChar c (l.dropWhile p) = true) : hasChar c l = true := by
  induction l with
  | nil => simpa using h
  | cons a rest ih =>
    by_cases hp : p a = true
    · rw [List.dropWhile_cons_of_pos hp] at h
      simp only [hasChar, Bool.or_eq_true]
      exact Or.inr (ih h)
    · rw [List.dropWhile_cons_of_neg hp] at h
      exact h

theorem trimRight_append (l : List Char) : ∃ t, l = trimRight l ++ t := by
  induction l with
  | nil => exact ⟨[], rfl⟩
  | cons c cs ih =>
    rcases ih with ⟨t, ht⟩
    cases he : trimRight cs with
    | nil =>
      by_cases hc : jsWs c = true
      · refine ⟨c :: cs, ?_⟩
        simp only [trimRight, he]
        rw [if_pos hc]
        rfl
      · refine ⟨cs, ?_⟩
        simp only [trimRight, he]
        rw [if_neg hc]
        rfl
    | cons r rs =>
      refine ⟨t, ?_⟩
      simp only [trimRight, he]
      rw [he] at ht
      rw [List.cons_append, ← ht]

theorem hasChar_trimRight (c : Char) (l : List Char)
    (h : hasChar c (trimRight l) = true) : hasChar c l = true := by
  rcases trimRight_append l with ⟨t, ht⟩
  rw [ht, hasChar_append, h]
  rfl

theorem hasChar_jsTrim (c : Char) (l : List Char)
    (h : hasChar c (jsTrim l) = true) : hasChar c l = true :=
  hasChar_dropWhile c jsWs l (hasChar_trimRight c _ h)

theorem wsOnlySpace_append_left (a b : List Char)
    (h : wsOnlySpace (a ++ b) = true) : wsOnlySpace a = true := by
  induction a with
  | nil => rfl
  | cons x xs ih =>
    rw [List.cons_append, wsOnlySpace_cons, Bool.and_eq_true] at h
    rw [wsOnlySpace_cons, Bool.and_eq_true]
    exact ⟨h.1, ih h.2⟩

theorem wsOnlySpace_dropWhile (p : Char → Bool) (l : List Char)
    (h : wsOnlySpace l = true) : wsOnlySpace (l.dropWhile p) = true := by
  induction l with
  | nil => rfl
  | cons a rest ih =>
    rw [wsOnlySpace_cons, Bool.and_eq_true] at h
    by_cases hp : p a = true
    · rw [List.dropWhile_cons_of_pos hp]
      exact ih h.2
    · rw [List.dropWhile_cons_of_neg hp, wsOnlySpace_cons, Bool.and_eq_true]
      exact ⟨h.1, h.2⟩

theorem wsPairFree_tail (a : Char) (l : List Char)
    (h : wsPairFree (a :: l) = true) : wsPairFree l = true := by
  cases l with
  | nil => rfl
  | cons b rest =>
    rw [wsPairFree_cons2, Bool.and_eq_true] at h
    exact h.2

theorem wsPairFree_append_left (a b : List Char)
    (h : wsPairFree (a ++ b) = true) : wsPairFree a = true := by
  induction a with
  | nil => rfl
  | cons x xs ih =>
    cases xs with
    | nil => rfl
    | cons y ys =>
      rw [List.cons_append, List.cons_append, wsPairFree_cons2, Bool.and_eq_true] at h
      rw [wsPairFree_cons2, Bool.and_eq_true]
      refine ⟨h.1, ih ?_⟩
      rw [List.cons_append]
      exact h.2

theorem wsPairFree_dropWhile (p : Char → Bool) (l : List Char)
    (h : wsPairFree l = true) : wsPairFree (l.dropWhile p) = true := by
  induction l with
  | nil => rfl
  | cons a rest ih =>
    by_cases hp : p a = true
    · rw [List.dropWhile_cons_of_pos hp]
      exact ih (wsPairFree_tail a rest h)
    · rw [List.dropWhile_cons_of_neg hp]
      exact h

theorem wsPairFree_trimRight (l : List Char)
    (h : wsPairFree l = true) : wsPairFree (trimRight l) = true := by
  rcases trimRight_append l with ⟨t, ht⟩
  rw [ht] at h
  exact wsPairFree_append_left _ _ h

theorem wsOnlySpace_trimRight (l : List Char)
    (h : wsOnlySpace l = true) : wsOnlySpace (trimRight l) = true := by
  rcases trimRight_append l with ⟨t, ht⟩
  rw [ht] at h
  exact wsOnlySpace_append_left _ _ h

theorem dropWhile_head_not (p : Char → Bool) (l : List Char) (c : Char)
    (h : (l.dropWhile p).head? = some c) : p c = false := by
  induction l with
  | nil => cases h
  | cons a rest ih =>
    by_cases hp : p a = true
    · rw [List.dropWhile_cons_of_pos hp] at h
      exact ih h
    · rw [List.dropWhile_cons_of_neg hp] at h
      simp only [List.head?_cons, Option.some.injEq] at h
      rw [← h]
      simpa using hp

theorem trimRight_head (l : List Char) :
    trimRight l = [] ∨ (trimRight l).head? = l.head? := by
  cases l with
  | nil => exact Or.inl rfl
  | cons c cs =>
    simp only [trimRight]
    cases he : trimRight cs with
    | nil =>
      by_cases hc : jsWs c = true
      · rw [if_pos hc]
        exact Or.inl rfl
      · rw [if_neg hc]
        exact Or.inr rfl
    | cons r rs => exact Or.inr rfl

theorem trimRight_last_not_ws (l : List Char) (c : Char)
    (h : (trimRight l).getLast? = some c) : jsWs c = false := by
  induction l with
  | nil => cases h
  | cons a rest ih =>
    simp only [trimRight] at h
    cases he : trimRight rest with
    | nil =>
      rw [he] at h
      by_cases ha : jsWs a = true
      · rw [if_pos ha] at h
        cases h
      · rw [if_neg ha] at h
        simp only [List.getLast?_singleton, Option.some.injEq] at h
        rw [← h]
        simpa using ha
    | cons r rs =>
      rw [he] at h
      rw [List.getLast?_cons_cons] at h
      apply ih
      rw [he]
      exact h

theorem dropWhile_id_of_head (p : Char → Bool) (l : List Char)
    (h : ∀ c, l.head? = some c → p c = false) : l.dropWhile p = l := by
  cases l with
  | nil => rfl
  | cons a rest =>
    have := h a rfl
    rw [List.dropWhile_cons_of_neg (by simp [this])]

theorem trimRight_id_of_last (l : List Char)
    (h : ∀ c, l.getLast? = some c → jsWs c = false) : trimRight l = l := by
  induction l with
  | nil => rfl
  | cons a rest ih =>
    cases rest with
    | nil =>
      have := h a rfl
      simp only [trimRight]
      rw [if_neg (by simp [this])]
    | cons b rs =>
      have hr : trimRight (b :: rs) = b :: rs := by
        apply ih
        intro c hc
        apply h
        rw [List.getLast?_cons_cons]
        exact hc
      have hstep : trimRight (a :: b :: rs) =
          (match trimRight (b :: rs) with
           | [] => if jsWs a then [] else [a]
           | r => a :: r) := rfl
      rw [hstep, hr]

theorem wsToLower (c : Char) (h : jsWs c = true) : c.toLower = c := by
  simp only [jsWs, Bool.or_eq_true, decide_eq_true_eq] at h
  rcases h with ((((h | h) | h) | h) | h) | h <;> subst h <;> decide

theorem lowersTo_nonempty_on_short (p q : Char) (ps : List Char) :
    lowersTo (p :: q :: ps) [] = false := rfl

theorem lowersTo_collapseWs (ps l : List Char)
    (hps : ∀ p ∈ ps, jsWs p = false)
    (h : lowersTo ps (collapseWs l) = true) : lowersTo ps l = true := by
  induction ps generalizing l with
  | nil => rfl
  | cons p ps2 ih =>
    cases hm : collapseWs l with
    | nil =>
      rw [hm] at h
      cases h
    | cons c t =>
      rw [hm] at h
      simp only [lowersTo, Bool.and_eq_true, decide_eq_true_eq] at h
      have hpw : jsWs p = false := hps p (List.mem_cons_self _ _)
      have hcw : jsWs c = false := by
        cases hcc : jsWs c
        · rfl
        · exfalso
          have := wsToLower c hcc
          rw [this] at h
          rw [h.1] at hpw
          rw [hcc] at hpw
          cases hpw
      rcases collapseWs_cons_inv l c t hcw hm with ⟨l2, hl2, ht⟩
      rw [hl2]
      simp only [lowersTo, Bool.and_eq_true, decide_eq_true_eq]
      refine ⟨h.1, ?_⟩
      apply ih l2 (fun x hx => hps x (List.mem_cons_of_mem _ hx))
      rw [← ht]
      exact h.2

theorem advToken_not_ws : ∀ p ∈ advToken, jsWs p = false := by decide

theorem hasToken_cons_of (c : Char) (cs : List Char)
    (h : hasToken cs = true) : hasToken (c :: cs) = true := by
  simp only [hasToken, Bool.or_eq_true]
  exact Or.inr h

theorem hasToken_collapseWs (l : List Char)
    (h : hasToken (collapseWs l) = true) : hasToken l = true := by
  induction l using collapseWs.induct with
  | case1 => cases h
  | case2 d hd =>
    exfalso
    simp only [collapseWs, hd, if_true] at h
    simp [hasToken, advToken, lowersTo] at h
  | case3 d hd =>
    exfalso
    simp only [collapseWs, hd, if_false] at h
    simp [hasToken, advToken, lowersTo] at h
  | case4 a b rest h4 ih =>
    have hcw : collapseWs (a :: b :: rest) = collapseWs (b :: rest) := by
      simp [collapseWs, h4]
    rw [hcw] at h
    exact hasToken_cons_of a _ (ih h)
  | case5 a b rest h5 ih =>
    have hcw : collapseWs (a :: b :: rest) =
        (if jsWs a then ' ' else a) :: collapseWs (b :: rest) := by
      simp [collapseWs, h5]
    rw [hcw] at h
    simp only [hasToken, Bool.or_eq_true] at h
    rcases h with h | h
    · by_cases ha : jsWs a = true
      · exfalso
        rw [if_pos ha] at h
        simp [advToken, lowersTo] at h
      · rw [if_neg ha] at h
        have : lowersTo advToken (collapseWs (a :: b :: rest)) = true := by
          rw [hcw, if_neg ha]
          exact h
        have h2 := lowersTo_collapseWs advToken (a :: b :: rest) advToken_not_ws this
        simp only [hasToken, Bool.or_eq_true]
        exact Or.inl h2
    · exact hasToken_cons_of a _ (ih h)

theorem removeAdsF_id (f : Nat) (l : List Char) (h : hasToken l = false) :
    removeAdsF f l = l := by
  induction f generalizing l with
  | zero => rfl
  | succ f2 ih =>
    cases l with
    | nil => rfl
    | cons c cs =>
      simp only [hasToken, Bool.or_eq_false_iff] at h
      simp only [removeAdsF]
      rw [if_neg (by simp [h.1])]
      rw [ih cs h.2]

theorem removeAds_id (l : List Char) (h : hasToken l = false) : removeAds l = l :=
  removeAdsF_id l.length l h

theorem lowersTo_append_left (ps l t : List Char)
    (h : lowersTo ps l = true) : lowersTo ps (l ++ t) = true := by
  induction ps generalizing l with
  | nil => rfl
  | cons p ps2 ih =>
    cases l with
    | nil => cases ps2 with | nil => cases h | cons q qs => cases h
    | cons c cs =>
      simp only [lowersTo, Bool.and_eq_true] at h
      simp only [List.cons_append, lowersTo, Bool.and_eq_true]
      exact ⟨h.1, ih cs h.2⟩

theorem hasToken_append_left (a t : List Char)
    (h : hasToken a = true) : hasToken (a ++ t) = true := by
  induction a with
  | nil => cases h
  | cons c cs ih =>
    simp only [hasToken, Bool.or_eq_true] at h
    rcases h with h | h
    · simp only [List.cons_append, hasToken, Bool.or_eq_true]
      exact Or.inl (lowersTo_append_left _ _ _ h)
    · simp only [List.cons_append, hasToken, Bool.or_eq_true]
      exact Or.inr (ih h)

theorem hasToken_dropWhile (p : Char → Bool) (l : List Char)
    (h : hasToken (l.dropWhile p) = true) : hasToken l = true := by
  induction l with
  | nil => simpa using h
  | cons a rest ih =>
    by_cases hp : p a = true
    · rw [List.dropWhile_cons_of_pos hp] at h
      exact hasToken_cons_of a _ (ih h)
    · rw [List.dropWhile_cons_of_neg hp] at h
      exact h

theorem hasToken_trimRight (l : List Char)
    (h : hasToken (trimRight l) = true) : hasToken l = true := by
  rcases trimRight_append l with ⟨t, ht⟩
  rw [ht]
  exact hasToken_append_left _ _ h

theorem hasToken_jsTrim (l : List Char)
    (h : hasToken (jsTrim l) = true) : hasToken l = true :=
  hasToken_dropWhile jsWs l (hasToken_trimRight _ h)

theorem normalize_pipeline (s : List Char) :
    GmailMcp.normalize s = jsTrim (removeAds (collapseWs s)) := by
  unfold GmailMcp.normalize
  rw [collapseNl_id _ (hasChar_collapseWs s '\n' (by decide) (by decide))]
  rw [collapseTab_id _ (hasChar_collapseWs s '\t' (by decide) (by decide))]
  rw [removeCr_id _ (hasChar_collapseWs s '\r' (by decide) (by decide))]

theorem popup_normalize_pipeline (s : List Char) :
    Popup.normalize s = jsTrim (collapseWs s) := by
  unfold Popup.normalize
  rw [collapseNl_id _ (hasChar_collapseWs s '\n' (by decide) (by decide))]

theorem hasChar_jsTrim_false (c : Char) (l : List Char) (h : hasChar c l = false) :
    hasChar c (jsTrim l) = false := by
  cases hh : hasChar c (jsTrim l)
  · rfl
  · rw [hasChar_jsTrim c l hh] at h
    cases h

theorem jsTrim_head_not_ws (l : List Char) :
    (jsTrim l).head?.all (fun c => !jsWs c) = true := by
  unfold jsTrim
  rcases trimRight_head (l.dropWhile jsWs) with h | h
  · rw [h]
    rfl
  · rw [h]
    cases hh : (l.dropWhile jsWs).head? with
    | none => rfl
    | some c =>
      have := dropWhile_head_not jsWs l c hh
      simp [Option.all, this]

theorem jsTrim_last_not_ws (l : List Char) :
    (jsTrim l).getLast?.all (fun c => !jsWs c) = true := by
  unfold jsTrim
  cases hh : (trimRight (l.dropWhile jsWs)).getLast? with
  | none => rfl
  | some c =>
    have := trimRight_last_not_ws _ c hh
    simp [Option.all, this]

/-- Claim C10: for every document, the simple variant's `extractPageContent`
output contains no newline, tab or carriage-return character and no two
consecutive whitespace characters, and carries no leading or trailing
whitespace; and indeed the newline-collapse step is a no-op on anything the
whitespace-collapse step has produced, so every whitespace run — blank-line
paragraph separators included — ends up as a single space. -/
theorem c10_output_whitespace_normalized (doc : Dom) :
    hasChar '\n' (Popup.extractPageContent doc) = false
    ∧ hasChar '\t' (Popup.extractPageContent doc) = false
    ∧ hasChar '\r' (Popup.extractPageContent doc) = false
    ∧ wsPairFree (Popup.extractPageContent doc) = true
    ∧ (Popup.extractPageContent doc).head?.all (fun c => !jsWs c) = true
    ∧ (Popup.extractPageContent doc).getLast?.all (fun c => !jsWs c) = true
    ∧ (∀ s : List Char, collapseNl (collapseWs s) = collapseWs s) := by
  have he : Popup.extractPageContent doc = jsTrim (collapseWs (Popup.getMainContent doc)) := by
    unfold Popup.extractPageContent
    exact popup_normalize_pipeline _
  rw [he]
  exact ⟨hasChar_jsTrim_false _ _ (hasChar_collapseWs _ _ (by decide) (by decide)),
    hasChar_jsTrim_false _ _ (hasChar_collapseWs _ _ (by decide) (by decide)),
    hasChar_jsTrim_false _ _ (hasChar_collapseWs _ _ (by decide) (by decide)),
    wsPairFree_trimRight _ (wsPairFree_dropWhile _ _ (wsPairFree_collapseWs _)),
    jsTrim_head_not_ws _, jsTrim_last_not_ws _,
    fun s => collapseNl_id _ (hasChar_collapseWs s '\n' (by decide) (by decide))⟩

/-- Claim C9 counterexample: the full normalizer is not idempotent — removing
an advertisement token that sits between two collapsed spaces leaves a double
space that a second normalization pass collapses further. -/
theorem c9_normalize_not_idempotent :
    GmailMcp.normalize (GmailMcp.normalize "a Advertisement b".data) ≠
      GmailMcp.normalize "a Advertisement b".data := by decide

/-- Claim C9 amended: the full normalizer is idempotent on every string with
no case-insensitive occurrence of the advertisement token (the
counterexample's token-removal step is the only source of non-idempotence). -/
theorem c9_idempotent_without_token (s : List Char) (h : hasToken s = false) :
    GmailMcp.normalize (GmailMcp.normalize s) = GmailMcp.normalize s := by
  have h1 : hasToken (collapseWs s) = false := by
    cases hh : hasToken (collapseWs s)
    · rfl
    · rw [hasToken_collapseWs s hh] at h
      cases h
  have hn : GmailMcp.normalize s = jsTrim (collapseWs s) := by
    rw [normalize_pipeline, removeAds_id _ h1]
  set r := jsTrim (collapseWs s) with hr
  have hr1 : wsOnlySpace r = true :=
    wsOnlySpace_trimRight _ (wsOnlySpace_dropWhile _ _ (wsOnlySpace_collapseWs s))
  have hr2 : wsPairFree r = true :=
    wsPairFree_trimRight _ (wsPairFree_dropWhile _ _ (wsPairFree_collapseWs s))
  have hr3 : hasToken r = false := by
    cases hh : hasToken r
    · rfl
    · exfalso
      have h2 := hasToken_jsTrim _ hh
      rw [h1] at h2
      cases h2
  have hcid : collapseWs r = r := collapseWs_id r hr1 hr2
  have hnr : GmailMcp.normalize r = jsTrim r := by
    rw [normalize_pipeline, hcid, removeAds_id _ hr3]
  have hhead : r.dropWhile jsWs = r := by
    apply dropWhile_id_of_head
    intro c hc
    have hA := jsTrim_head_not_ws (collapseWs s)
    rw [← hr] at hA
    rw [hc] at hA
    simpa using hA
  have htr : trimRight r = r := by
    apply trimRight_id_of_last
    intro c hc
    have hA := jsTrim_last_not_ws (collapseWs s)
    rw [← hr] at hA
    rw [hc] at hA
    simpa using hA
  rw [hn, hnr]
  unfold jsTrim
  rw [hhead, htr]

/-- Witness for claim C9 as amended, at a token-free string with whitespace
runs on both ends and inside. -/
theorem c9_idempotent_without_token_witness :
    hasToken "  hello   world ".data = false
    ∧ GmailMcp.normalize (GmailMcp.normalize "  hello   world ".data) =
        GmailMcp.normalize "  hello   world ".data :=
  ⟨by decide, c9_idempotent_without_token _ (by decide)⟩

/-- Claim C6 counterexample: the advertisement token is removed, but the
whitespace surrounding it is not collapsed correctly — removal happens after
the whitespace-collapse step, so the two spaces around a removed token survive
as consecutive whitespace in the final output. -/
theorem c6_surrounding_ws_not_collapsed :
    GmailMcp.normalize "x ADVERTISEMENT y".data = "x  y".data
    ∧ wsPairFree (GmailMcp.normalize "x ADVERTISEMENT y".data) = false :=
  ⟨by decide, by decide⟩

/-- Claim C6 amended: every case-insensitive occurrence of the literal
advertisement token is removed (the normalizer is exactly collapse, then
removal, then trim — the newline, tab and carriage-return steps are no-ops by
then), but the whitespace surrounding a removed token is left as two adjacent
spaces rather than collapsed; only leading and trailing whitespace is trimmed
afterwards. -/
theorem c6_token_removed_after_collapse :
    (∀ s : List Char, GmailMcp.normalize s = jsTrim (removeAds (collapseWs s)))
    ∧ GmailMcp.normalize "Advertisement".data = []
    ∧ GmailMcp.normalize " foo Advertisement bar ".data = "foo  bar".data
    ∧ GmailMcp.normalize "one ADVERTISEMENT two advertisement three".data =
        "one  two  three".data :=
  ⟨normalize_pipeline, by decide, by decide, by decide⟩
